import Mathlib

set_option maxRecDepth 10000

/-!
Shallow embedding of the ManabiFun English Adventure quiz application
(`app.py`, `alex_adventure.py`, `train_model.py`) and proofs about its
shuffle routine, chapter-progress bookkeeping, score logging, quiz
question selection, weakness prediction and training-data generation.

Randomness is modelled by passing the sequence of draws explicitly:
`random.randint(0, i)` becomes a value of `Fin (i + 1)` supplied by a
draw function.  Python floats are modelled by exact rationals.  Python
lists are Lean lists; where object identity matters (in-place mutation
versus copying) a small explicit heap of lists is used, with references
as indices into the heap.
-/

namespace ManabiFun

/-- Python's simultaneous assignment `lst[i], lst[j] = lst[j], lst[i]`:
both right-hand sides are read from the original list, then written back.
If either index is out of range the list is returned unchanged (the
shuffle loops below only ever swap in range). -/
def listSwap {α : Type*} (l : List α) (i j : ℕ) : List α :=
  match l.get? i, l.get? j with
  | some a, some b => (l.set i b).set j a
  | _, _ => l

/-- A sequence of random draws: the draw consumed at loop index `i`
is `random.randint(0, i)`, i.e. a uniform element of `{0, ..., i}`,
modelled as `Fin (i + 1)`. -/
abbrev Draws := (i : ℕ) → Fin (i + 1)

namespace App

/-- The loop `for i in range(n - 1, 0, -1)` of `fisher_yates_shuffle`
in `app.py`: at index `i + 1` draw `j = random.randint(0, i + 1)` and
swap positions `i + 1` and `j`, then continue with index `i`;
index `0` is not executed (`range` stops before `0`). -/
def fisher_yates_shuffle_loop {α : Type*} (ds : Draws) : ℕ → List α → List α
  | 0, l => l
  | i + 1, l => fisher_yates_shuffle_loop ds i (listSwap l (i + 1) (ds (i + 1) : ℕ))

/-- Model of `fisher_yates_shuffle` from `app.py`: `n = len(questions_list)`,
then the descending swap loop starting at `n - 1`, returning the
(mutated) argument list. -/
def fisher_yates_shuffle {α : Type*} (ds : Draws) (questions_list : List α) : List α :=
  fisher_yates_shuffle_loop ds (questions_list.length - 1) questions_list

end App

namespace AlexAdventure

/-- The identical descending swap loop of `fisher_yates_shuffle` in
`alex_adventure.py`. -/
def fisher_yates_shuffle_loop {α : Type*} (ds : Draws) : ℕ → List α → List α
  | 0, l => l
  | i + 1, l => fisher_yates_shuffle_loop ds i (listSwap l (i + 1) (ds (i + 1) : ℕ))

/-- Model of `fisher_yates_shuffle` from `alex_adventure.py`: it first takes
`questions = questions_list.copy()` (value-identical; the fresh object
is visible only in the heap model below), then runs the same loop and
returns the copy. -/
def fisher_yates_shuffle {α : Type*} (ds : Draws) (questions_list : List α) : List α :=
  let questions := questions_list
  fisher_yates_shuffle_loop ds (questions.length - 1) questions

end AlexAdventure

/-! ### Heap model of Python list objects

A heap is a store of list objects; a reference is an index into the
store.  `app.py`'s shuffle mutates the referenced object in place and
returns the same reference; `alex_adventure.py`'s allocates a copy and
returns a reference to the copy. -/

/-- A store of Python list objects. -/
abbrev Heap (α : Type*) := List (List α)

/-- Dereference: the list object held at reference `r`. -/
def heapGet {α : Type*} (h : Heap α) (r : ℕ) : List α := h.getD r []

/-- The swap loop acting on the heap: each iteration rewrites the list
object stored at reference `r` with one swap applied. -/
def heapShuffleLoop {α : Type*} (ds : Draws) : ℕ → Heap α → ℕ → Heap α
  | 0, h, _ => h
  | i + 1, h, r =>
      heapShuffleLoop ds i (h.set r (listSwap (heapGet h r) (i + 1) (ds (i + 1) : ℕ))) r

namespace App

/-- Heap semantics of `app.py`'s `fisher_yates_shuffle`: run the swap
loop in place on the object at `r` and return the same reference. -/
def fisher_yates_shuffle_heap {α : Type*} (ds : Draws) (h : Heap α) (r : ℕ) : Heap α × ℕ :=
  (heapShuffleLoop ds ((heapGet h r).length - 1) h r, r)

end App

namespace AlexAdventure

/-- Heap semantics of `alex_adventure.py`'s `fisher_yates_shuffle`:
`questions = questions_list.copy()` allocates a fresh object at the end
of the store; the swap loop mutates the copy and the reference to the
copy is returned, the argument object staying untouched. -/
def fisher_yates_shuffle_heap {α : Type*} (ds : Draws) (h : Heap α) (r : ℕ) : Heap α × ℕ :=
  let questions := heapGet h r
  let h2 := h ++ [questions]
  let r2 := h.length
  (heapShuffleLoop ds (questions.length - 1) h2 r2, r2)

end AlexAdventure

/-! ### Draw sequences for a fixed length, and the induced permutation -/

/-- The draw sequences consumed when shuffling a list of length `n`:
one uniform draw from `{0, ..., i}` for each position `i < n` (the draw
at position `0` is trivial, the loop never uses it).  There are exactly
`n!` such sequences. -/
abbrev BoundedDraws (n : ℕ) := (i : Fin n) → Fin (i.val + 1)

/-- Extend a bounded draw sequence to all of `ℕ` (indices `≥ n` are
never consumed by a shuffle of a length-`n` list). -/
def dsExt {n : ℕ} (d : BoundedDraws n) : Draws :=
  fun i => if h : i < n then d ⟨i, h⟩ else ⟨0, Nat.succ_pos i⟩

/-- The arrangement produced by `app.py`'s `fisher_yates_shuffle` on the
identity arrangement `[0, 1, ..., n-1]` under draw sequence `d`. -/
def outList {n : ℕ} (d : BoundedDraws n) : List (Fin n) :=
  App.fisher_yates_shuffle (dsExt d) (List.finRange n)

/-! ### Question bank and chapter quizzes -/

/-- A row of the question bank CSV; only the columns the selection
logic inspects are modelled. -/
structure Question where
  topic : String
  difficulty : String
  question : String
  correct_answer : String
deriving DecidableEq

/-- Python's `str.strip()`, as the resulting character list: drop
leading and trailing whitespace. -/
def pyStrip (s : String) : List Char :=
  ((s.toList.dropWhile Char.isWhitespace).reverse.dropWhile Char.isWhitespace).reverse

namespace AlexAdventure

/-- Model of `get_chapter_questions` from `alex_adventure.py`: filter the
question bank to the realm's topic and the chapter's difficulty,
return `[]` when nothing matches, otherwise convert to a list,
shuffle it with `fisher_yates_shuffle`, and keep the first
`max_questions` (the caller's limit, 10 by default). -/
def get_chapter_questions (ds : Draws) (questions_df : List Question)
    (realm_key difficulty : String) (max_questions : ℕ) : List Question :=
  let filtered_questions :=
    questions_df.filter fun q => q.topic == realm_key && q.difficulty == difficulty
  if filtered_questions.length = 0 then []
  else
    let questions_list := filtered_questions
    let shuffled_questions := fisher_yates_shuffle ds questions_list
    shuffled_questions.take max_questions

end AlexAdventure

namespace App

/-- Model of `start_chapter_quiz` from `app.py`, returning the final value of
`st.session_state.quiz_questions`: `none` when the function returns on
the first error path before touching it; `some []` when it was reset and
the validity filter left nothing; otherwise the shuffled valid
questions.  The realm's questions are cut to the first 10 (`head(10)`)
before validation and shuffling. -/
def start_chapter_quiz (ds : Draws) (questions_df : List Question)
    (realm_key difficulty : String) : Option (List Question) :=
  let realm_questions :=
    (questions_df.filter fun q => q.topic == realm_key && q.difficulty == difficulty).take 10
  if realm_questions.length = 0 then none
  else
    let questions_list := realm_questions
    let valid_questions := questions_list.filter fun q => !(pyStrip q.question).isEmpty
    if valid_questions.length = 0 then some []
    else some (fisher_yates_shuffle ds valid_questions)

end App

/-! ### Chapter-progress bookkeeping (`alex_adventure.py`) -/

namespace AlexAdventure

/-- The per-chapter counters kept in
`st.session_state.chapter_stats[realm_key][difficulty]`. -/
structure ChapterStats where
  total_questions : ℕ
  correct_answers : ℕ
deriving DecidableEq

/-- Model of `calculate_chapter_accuracy`: `0` for an unattempted chapter,
otherwise `correct_answers / total_questions * 100` (exact rationals
standing for Python floats). -/
def calculate_chapter_accuracy (chapter_stats : ChapterStats) : ℚ :=
  if chapter_stats.total_questions = 0 then 0
  else ((chapter_stats.correct_answers : ℚ) / (chapter_stats.total_questions : ℚ)) * 100

/-- Model of `is_chapter_passed`: at least 10 questions attempted and accuracy at
least the pass threshold (89 at the call sites). -/
def is_chapter_passed (chapter_stats : ChapterStats) (pass_threshold : ℚ) : Bool :=
  decide (10 ≤ chapter_stats.total_questions) &&
    decide (pass_threshold ≤ calculate_chapter_accuracy chapter_stats)

end AlexAdventure

/-! ### Score logging and progress tracking (`app.py`) -/

namespace App

/-- A row of `data/student_scores.csv`, in column order. -/
structure ScoreRow where
  student_id : String
  student_name : String
  timestamp : String
  quiz_type : String
  topic : String
  score : ℕ
  total_questions : ℕ
  correct_answers : ℕ
  time_spent_minutes : ℕ
  difficulty_level : String
  xp_earned : ℕ
  streak_day : ℕ
deriving DecidableEq

/-- Model of `log_score` from `app.py`: read the whole CSV, concatenate one new
row built from the arguments (plus the wall-clock timestamp and two
dummy random draws, passed here explicitly), and write it back.  The
file contents are modelled as the list of rows. -/
def log_score (file : List ScoreRow) (student_id student_name topic : String)
    (score total correct : ℕ) (difficulty : String) (xp : ℕ)
    (timestamp : String) (time_spent_minutes streak_day : ℕ) : List ScoreRow :=
  file ++ [{ student_id := student_id, student_name := student_name,
             timestamp := timestamp, quiz_type := "island", topic := topic,
             score := score, total_questions := total, correct_answers := correct,
             time_spent_minutes := time_spent_minutes, difficulty_level := difficulty,
             xp_earned := xp, streak_day := streak_day }]

/-- The five-topic list used when the model file carries no topic
mapping; the claim's `TOPICS`. -/
def TOPICS : List String := ["grammar", "articles", "synonyms", "antonyms", "sentences"]

/-- Model of `predict_weakness` from `app.py`.  The pickled classifier is a
parameter: `model scores_row` either yields a class index or raises
(`Except.error`).  The whole body sits in a `try`: on an exception it
returns `(0, TOPICS[0])`; an in-range index selects its topic, an
out-of-range one falls back to `TOPICS[0]`. -/
def predict_weakness (model : List ℚ → Except String ℕ) (scores_row : List ℚ) : ℕ × String :=
  match model scores_row with
  | Except.ok prediction =>
      (prediction,
        if prediction < TOPICS.length then TOPICS.getD prediction "" else TOPICS.getD 0 "")
  | Except.error _ => (0, TOPICS.getD 0 "")

/-- The guarded percentage `(score / total_questions) * 100 if
total_questions > 0 else 0` computed by `update_user_progress`. -/
def quiz_percentage (score total_questions : ℕ) : ℚ :=
  if 0 < total_questions then ((score : ℚ) / (total_questions : ℚ)) * 100 else 0

/-- The identical guarded percentage computed by `show_quiz_results`. -/
def show_quiz_results_percentage (score total_questions : ℕ) : ℚ :=
  if 0 < total_questions then ((score : ℚ) / (total_questions : ℚ)) * 100 else 0

/-- One entry of `player_progress['completed_chapters'][realm][difficulty]`. -/
structure ChapterEntry where
  score : ℕ
  total : ℕ
  percentage : ℚ
  attempts : ℕ
  date : String

/-- Python dict update `d[k] = v` on a dict modelled as an ordered
association list: replace the binding in place if the key exists,
append it otherwise. -/
def dictSet {β : Type*} (l : List (String × β)) (k : String) (v : β) : List (String × β) :=
  if l.any (fun p => p.1 == k) then l.map (fun p => if p.1 = k then (k, v) else p)
  else l ++ [(k, v)]

/-- The `st.session_state.player_progress` dictionary. -/
structure PlayerProgress where
  completed_chapters : List (String × List (String × ChapterEntry))
  total_questions : ℕ
  total_correct : ℕ
  learning_path : List String
  realm_mastery : List (String × ℚ)
  weak_areas : List String
  strong_areas : List String

/-- Model of `update_user_progress` from `app.py`: record the chapter attempt,
bump the global counters, extend the learning path, recompute the
realm's mastery as the mean percentage over its recorded chapters, and
maintain the weak/strong area lists: below 60 the realm is added to
`weak_areas` if absent; at 85 or above it is added to `strong_areas` if
absent and removed (first occurrence) from `weak_areas` if present. -/
def update_user_progress (st : PlayerProgress) (realm_key difficulty : String)
    (score total_questions : ℕ) (date : String) : PlayerProgress :=
  let percentage := quiz_percentage score total_questions
  let realmMap := ((st.completed_chapters.lookup realm_key).getD [])
  let prevAttempts := ((realmMap.lookup difficulty).map ChapterEntry.attempts).getD 0
  let entry : ChapterEntry :=
    { score := score, total := total_questions, percentage := percentage,
      attempts := prevAttempts + 1, date := date }
  let realmMap2 := dictSet realmMap difficulty entry
  let completed2 := dictSet st.completed_chapters realm_key realmMap2
  let chapter_key := realm_key ++ "_" ++ difficulty
  let learning2 :=
    if chapter_key ∈ st.learning_path then st.learning_path
    else st.learning_path ++ [chapter_key]
  let mastery := (realmMap2.map fun p => p.2.percentage).sum / (realmMap2.length : ℚ)
  let mastery2 := dictSet st.realm_mastery realm_key mastery
  let weak2 :=
    if percentage < 60 then
      (if realm_key ∈ st.weak_areas then st.weak_areas else st.weak_areas ++ [realm_key])
    else if 85 ≤ percentage then st.weak_areas.erase realm_key
    else st.weak_areas
  let strong2 :=
    if percentage < 60 then st.strong_areas
    else if 85 ≤ percentage then
      (if realm_key ∈ st.strong_areas then st.strong_areas
       else st.strong_areas ++ [realm_key])
    else st.strong_areas
  { completed_chapters := completed2,
    total_questions := st.total_questions + total_questions,
    total_correct := st.total_correct + score,
    learning_path := learning2,
    realm_mastery := mastery2,
    weak_areas := weak2,
    strong_areas := strong2 }

end App

/-! ### Synthetic training data (`train_model.py`) -/

namespace TrainModel

/-- Model of `np.clip(x, lo, hi)`. -/
def npClip (x lo hi : ℚ) : ℚ := min hi (max lo x)

/-- The feature/label pair of one synthetic sample `k` of
`create_training_data_from_csv`: pick a weak topic index
(`random.randint(0, len(topics) - 1)`, supplied by `weakDraw`), clip
the per-topic base scores (`np.random.normal(70, 12)`, supplied by
`baseDraw`) into `[30, 95]`, overwrite the weak topic's score with
`np.random.normal(40, 8)` clipped into `[20, 65]`, and append the time
feature (with a grammar surcharge and a 5-minute floor). -/
def trainingSample (topics : List String) (weakDraw : ℕ → ℕ)
    (baseDraw : ℕ → ℕ → ℚ) (weakScoreDraw : ℕ → ℚ)
    (timeDraw grammarExtraDraw : ℕ → ℚ) (k : ℕ) : List ℚ × ℕ :=
  let weak_topic_idx := weakDraw k
  let scores :=
    ((List.range topics.length).map fun t => npClip (baseDraw k t) 30 95).set
      weak_topic_idx (npClip (weakScoreDraw k) 20 65)
  let base_time := timeDraw k + (if weak_topic_idx = 0 then grammarExtraDraw k else 0)
  let time_spent := max 5 base_time
  (scores ++ [time_spent], weak_topic_idx)

/-- Model of `create_training_data_from_csv` from `train_model.py`: 2000 samples
built purely from the topic list of the question bank and the seeded
random draws.  The recorded student score log is passed in only to make
its irrelevance provable: the function never reads it. -/
def create_training_data_from_csv (topics : List String)
    (student_scores : List App.ScoreRow) (weakDraw : ℕ → ℕ)
    (baseDraw : ℕ → ℕ → ℚ) (weakScoreDraw : ℕ → ℚ)
    (timeDraw grammarExtraDraw : ℕ → ℚ) : List (List ℚ) × List ℕ :=
  let samples := (List.range 2000).map
    (trainingSample topics weakDraw baseDraw weakScoreDraw timeDraw grammarExtraDraw)
  (samples.map Prod.fst, samples.map Prod.snd)

end TrainModel

end ManabiFun

/-! ## Supporting lemmas -/

namespace ManabiFun

theorem listSwap_length {α : Type*} (l : List α) (i j : ℕ) :
    (listSwap l i j).length = l.length := by
  unfold listSwap
  split <;> simp [List.length_set]

theorem listSwap_of_oob {α : Type*} {l : List α} {i j : ℕ}
    (h : l.length ≤ i ∨ l.length ≤ j) : listSwap l i j = l := by
  unfold listSwap
  split
  · next a b ha hb =>
      rcases h with h | h
      · exact absurd (List.get?_eq_some.mp ha).1 (not_lt.mpr h)
      · exact absurd (List.get?_eq_some.mp hb).1 (not_lt.mpr h)
  · rfl

theorem listSwap_get?_fst {α : Type*} {l : List α} {i j : ℕ}
    (hi : i < l.length) (hj : j < l.length) :
    (listSwap l i j).get? i = l.get? j := by
  unfold listSwap
  rw [List.get?_eq_get hi, List.get?_eq_get hj]
  by_cases hij : i = j
  · subst hij
    show ((l.set i (l.get ⟨i, hj⟩)).set i (l.get ⟨i, hi⟩)).get? i = some (l.get ⟨i, hj⟩)
    rw [List.set_set, List.get?_eq_getElem?]
    exact List.getElem?_set_eq_of_lt _ hi
  · rw [List.get?_set_ne _ _ (Ne.symm hij), List.get?_eq_getElem?]
    exact List.getElem?_set_eq_of_lt _ hi

theorem listSwap_get?_snd {α : Type*} {l : List α} {i j : ℕ}
    (hi : i < l.length) (hj : j < l.length) :
    (listSwap l i j).get? j = l.get? i := by
  unfold listSwap
  rw [List.get?_eq_get hi, List.get?_eq_get hj, List.get?_eq_getElem?]
  exact List.getElem?_set_eq_of_lt _ (by simpa [List.length_set] using hj)

theorem listSwap_get?_other {α : Type*} {l : List α} {i j k : ℕ}
    (hki : k ≠ i) (hkj : k ≠ j) :
    (listSwap l i j).get? k = l.get? k := by
  unfold listSwap
  split
  · rw [List.get?_set_ne _ _ (Ne.symm hkj), List.get?_set_ne _ _ (Ne.symm hki)]
  · rfl

theorem listSwap_eq_ofFn {α : Type*} (l : List α) (i j : ℕ)
    (hi : i < l.length) (hj : j < l.length) :
    listSwap l i j =
      List.ofFn (fun k : Fin l.length => l.get (Equiv.swap ⟨i, hi⟩ ⟨j, hj⟩ k)) := by
  apply List.ext
  intro k
  by_cases hk : k < l.length
  · rw [List.get?_ofFn]
    simp only [List.ofFnNthVal, hk, dif_pos]
    rcases eq_or_ne k i with hki | hki
    · subst hki
      rw [listSwap_get?_fst hk hj, List.get?_eq_get hj]
      simp [Equiv.swap_apply_def, Fin.ext_iff]
    · rcases eq_or_ne k j with hkj | hkj
      · subst hkj
        rw [listSwap_get?_snd hi hk, List.get?_eq_get hi]
        simp [Equiv.swap_apply_def, Fin.ext_iff, hki]
      · rw [listSwap_get?_other hki hkj, List.get?_eq_get hk]
        simp [Equiv.swap_apply_def, Fin.ext_iff, hki, hkj]
  · have h1 : (listSwap l i j).get? k = none := by
      rw [List.get?_eq_none, listSwap_length]
      exact not_lt.mp hk
    have h2 : (List.ofFn fun k => l.get (Equiv.swap ⟨i, hi⟩ ⟨j, hj⟩ k)).get? k = none := by
      rw [List.get?_eq_none, List.length_ofFn]
      exact not_lt.mp hk
    rw [h1, h2]

theorem ofFn_comp_perm {α : Type*} {n : ℕ} (f : Fin n → α) (σ : Equiv.Perm (Fin n)) :
    List.Perm (List.ofFn fun k => f (σ k)) (List.ofFn f) := by
  rw [List.ofFn_eq_map, List.ofFn_eq_map]
  have hperm : List.Perm ((List.finRange n).map σ) (List.finRange n) := by
    apply List.perm_of_nodup_nodup_toFinset_eq
    · exact (List.nodup_finRange n).map σ.injective
    · exact List.nodup_finRange n
    · apply Finset.ext
      intro x
      constructor
      · intro _
        exact List.mem_toFinset.mpr (List.mem_finRange x)
      · intro _
        exact List.mem_toFinset.mpr
          (List.mem_map.mpr ⟨σ.symm x, List.mem_finRange _, σ.apply_symm_apply x⟩)
  simpa [List.map_map, Function.comp] using hperm.map f

theorem listSwap_perm {α : Type*} (l : List α) (i j : ℕ) :
    List.Perm (listSwap l i j) l := by
  by_cases hi : i < l.length
  · by_cases hj : j < l.length
    · rw [listSwap_eq_ofFn l i j hi hj]
      have h := ofFn_comp_perm (fun k : Fin l.length => l.get k) (Equiv.swap ⟨i, hi⟩ ⟨j, hj⟩)
      simpa [List.ofFn_get] using h
    · rw [listSwap_of_oob (Or.inr (not_lt.mp hj))]
  · rw [listSwap_of_oob (Or.inl (not_lt.mp hi))]

theorem shuffle_loop_perm {α : Type*} (ds : Draws) (i : ℕ) (l : List α) :
    List.Perm (App.fisher_yates_shuffle_loop ds i l) l := by
  induction i generalizing l with
  | zero => exact List.Perm.refl l
  | succ i ih =>
      exact (ih (listSwap l (i + 1) (ds (i + 1) : ℕ))).trans (listSwap_perm l _ _)

theorem shuffle_loop_length {α : Type*} (ds : Draws) (i : ℕ) (l : List α) :
    (App.fisher_yates_shuffle_loop ds i l).length = l.length :=
  (shuffle_loop_perm ds i l).length_eq

/-- Loop indices above the current counter are never touched again. -/
theorem shuffle_loop_get?_high {α : Type*} (ds : Draws) (i : ℕ) (l : List α) (k : ℕ)
    (hk : i < k) :
    (App.fisher_yates_shuffle_loop ds i l).get? k = l.get? k := by
  induction i generalizing l with
  | zero => rfl
  | succ i ih =>
      show (App.fisher_yates_shuffle_loop ds i
        (listSwap l (i + 1) (ds (i + 1) : ℕ))).get? k = l.get? k
      rw [ih _ (Nat.lt_of_succ_lt hk)]
      exact listSwap_get?_other (by omega)
        (by have := (ds (i + 1)).isLt; omega)

/-- After the iteration at index `i + 1`, position `i + 1` holds the
element drawn from position `ds (i + 1)` of the list entering that
iteration, and keeps it to the end of the loop. -/
theorem shuffle_loop_get?_top {α : Type*} (ds : Draws) (i : ℕ) (l : List α)
    (h : i + 1 < l.length) :
    (App.fisher_yates_shuffle_loop ds (i + 1) l).get? (i + 1) = l.get? (ds (i + 1) : ℕ) := by
  show (App.fisher_yates_shuffle_loop ds i
    (listSwap l (i + 1) (ds (i + 1) : ℕ))).get? (i + 1) = l.get? (ds (i + 1) : ℕ)
  rw [shuffle_loop_get?_high ds i _ (i + 1) (Nat.lt_succ_self i)]
  exact listSwap_get?_fst h (by have := (ds (i + 1)).isLt; omega)

theorem outList_perm {n : ℕ} (d : BoundedDraws n) :
    List.Perm (outList d) (List.finRange n) :=
  shuffle_loop_perm (dsExt d) ((List.finRange n).length - 1) (List.finRange n)

theorem outList_length {n : ℕ} (d : BoundedDraws n) : (outList d).length = n := by
  simpa using (outList_perm d).length_eq

theorem outList_nodup {n : ℕ} (d : BoundedDraws n) : (outList d).Nodup :=
  (outList_perm d).nodup_iff.mpr (List.nodup_finRange n)

/-- Distinct draw sequences applied to a duplicate-free list produce
distinct outputs: the drawn index at each loop position is recoverable
from the output. -/
theorem shuffle_loop_draws_inj {α : Type*} (m : ℕ) :
    ∀ (l : List α), l.Nodup → m < l.length → ∀ (ds ds' : Draws),
      App.fisher_yates_shuffle_loop ds m l = App.fisher_yates_shuffle_loop ds' m l →
      ∀ i, 1 ≤ i → i ≤ m → (ds i : ℕ) = (ds' i : ℕ) := by
  induction m with
  | zero =>
      intro l _ _ ds ds' _ i h1 h2
      omega
  | succ m ih =>
      intro l hl hm ds ds' h i h1 h2
      have hds : ((ds (m + 1)) : ℕ) = ((ds' (m + 1)) : ℕ) := by
        have e1 := shuffle_loop_get?_top ds m l hm
        have e2 := shuffle_loop_get?_top ds' m l hm
        rw [h, e2] at e1
        exact (List.get?_inj (by have := (ds' (m + 1)).isLt; omega) hl e1).symm
      rcases Nat.lt_or_ge i (m + 1) with hi | hi
      · have hswap : listSwap l (m + 1) ((ds' (m + 1)) : ℕ) =
            listSwap l (m + 1) ((ds (m + 1)) : ℕ) := by rw [hds]
        have h2' : App.fisher_yates_shuffle_loop ds m
              (listSwap l (m + 1) ((ds (m + 1)) : ℕ)) =
            App.fisher_yates_shuffle_loop ds' m
              (listSwap l (m + 1) ((ds (m + 1)) : ℕ)) := by
          have hu : App.fisher_yates_shuffle_loop ds' (m + 1) l =
              App.fisher_yates_shuffle_loop ds' m
                (listSwap l (m + 1) ((ds' (m + 1)) : ℕ)) := rfl
          calc App.fisher_yates_shuffle_loop ds m (listSwap l (m + 1) ((ds (m + 1)) : ℕ))
              = App.fisher_yates_shuffle_loop ds (m + 1) l := rfl
            _ = App.fisher_yates_shuffle_loop ds' (m + 1) l := h
            _ = App.fisher_yates_shuffle_loop ds' m
                  (listSwap l (m + 1) ((ds (m + 1)) : ℕ)) := by rw [hu, hswap]
        have hnd2 : (listSwap l (m + 1) ((ds (m + 1)) : ℕ)).Nodup :=
          (listSwap_perm l _ _).nodup_iff.mpr hl
        have hlen2 : m < (listSwap l (m + 1) ((ds (m + 1)) : ℕ)).length := by
          rw [listSwap_length]; omega
        exact ih _ hnd2 hlen2 ds ds' h2' i h1 (by omega)
      · have hieq : i = m + 1 := by omega
        rw [hieq]
        exact hds

/-- The map from draw sequences to arrangements is injective. -/
theorem outList_injective (n : ℕ) :
    Function.Injective (fun d : BoundedDraws n => outList d) := by
  intro d d' h
  funext i
  rcases i with ⟨iv, hiv⟩
  cases iv with
  | zero => exact Subsingleton.elim (α := Fin 1) (d ⟨0, hiv⟩) (d' ⟨0, hiv⟩)
  | succ v =>
      have hlen : (List.finRange n).length = n := List.length_finRange n
      have hval := shuffle_loop_draws_inj ((List.finRange n).length - 1) (List.finRange n)
        (List.nodup_finRange n) (by rw [hlen]; omega) (dsExt d) (dsExt d') h
        (v + 1) (by omega) (by rw [hlen]; omega)
      have e1 : ((dsExt d) (v + 1) : ℕ) = (d ⟨v + 1, hiv⟩ : ℕ) := by
        simp [dsExt, hiv]
      have e2 : ((dsExt d') (v + 1) : ℕ) = (d' ⟨v + 1, hiv⟩ : ℕ) := by
        simp [dsExt, hiv]
      apply Fin.ext
      rw [← e1, ← e2]
      exact hval

/-- There are `n!` draw sequences for a length-`n` list. -/
theorem card_boundedDraws (n : ℕ) : Fintype.card (BoundedDraws n) = n.factorial := by
  rw [Fintype.card_pi]
  simp only [Fintype.card_fin]
  rw [Fin.prod_univ_eq_prod_range (fun i => i + 1) n]
  exact Finset.prod_range_add_one_eq_factorial n

/-- Reading off a duplicate-free full-length list as a function on
positions is a bijection of `Fin n`. -/
theorem get_fun_bijective {n : ℕ} (l : List (Fin n)) (hlen : l.length = n) (hnd : l.Nodup) :
    Function.Bijective (fun k : Fin n => l.get (Fin.cast hlen.symm k)) := by
  apply Function.Injective.bijective_of_finite
  intro a b hab
  have h2 := List.nodup_iff_injective_get.mp hnd hab
  apply Fin.ext
  have h3 := congrArg Fin.val h2
  simpa using h3

/-- The map from draw sequences to arrangements hits every permutation
of the identity arrangement. -/
theorem outList_surjective (n : ℕ) (l : List (Fin n))
    (hl : List.Perm l (List.finRange n)) : ∃ d : BoundedDraws n, outList d = l := by
  classical
  have hlenl : l.length = n := by simpa using hl.length_eq
  have hndl : l.Nodup := hl.nodup_iff.mpr (List.nodup_finRange n)
  let g : BoundedDraws n → Equiv.Perm (Fin n) := fun d =>
    Equiv.ofBijective _ (get_fun_bijective (outList d) (outList_length d) (outList_nodup d))
  have ginj : Function.Injective g := by
    intro d d' hg
    apply outList_injective n
    apply List.ext_get (by rw [outList_length, outList_length])
    intro i h1 h2
    have hk := congrFun (congrArg (fun e : Equiv.Perm (Fin n) => (e : Fin n → Fin n)) hg)
      ⟨i, by rw [← outList_length d]; exact h1⟩
    exact hk
  have gbij : Function.Bijective g := by
    rw [Fintype.bijective_iff_injective_and_card]
    refine ⟨ginj, ?_⟩
    rw [card_boundedDraws, Fintype.card_perm, Fintype.card_fin]
  obtain ⟨d, hd⟩ := gbij.2 (Equiv.ofBijective _ (get_fun_bijective l hlenl hndl))
  refine ⟨d, ?_⟩
  apply List.ext_get (by rw [outList_length, hlenl])
  intro i h1 h2
  have hk := congrFun (congrArg (fun e : Equiv.Perm (Fin n) => (e : Fin n → Fin n)) hd)
    ⟨i, by rw [← outList_length d]; exact h1⟩
  exact hk

/-- The two files' shuffle loops are the same function of the list
value and the draws. -/
theorem app_alex_loop_eq {α : Type*} (ds : Draws) (m : ℕ) (l : List α) :
    App.fisher_yates_shuffle_loop ds m l = AlexAdventure.fisher_yates_shuffle_loop ds m l := by
  induction m generalizing l with
  | zero => rfl
  | succ m ih => exact ih (listSwap l (m + 1) (ds (m + 1) : ℕ))

theorem heapGet_eq_get {α : Type*} (h : Heap α) (r : ℕ) (hr : r < h.length) :
    heapGet h r = h.get ⟨r, hr⟩ := by
  rw [heapGet, List.getD_eq_get?, List.get?_eq_get hr]
  rfl

theorem set_heapGet_self {α : Type*} (h : Heap α) (r : ℕ) (hr : r < h.length) :
    h.set r (heapGet h r) = h := by
  rw [heapGet_eq_get h r hr]
  apply List.ext
  intro k
  by_cases hk : k = r
  · subst hk
    rw [show h.set k (h.get ⟨k, hr⟩) = h.set k (h.get ⟨k, hr⟩) from rfl,
      List.get?_eq_getElem? (h.set k (h.get ⟨k, hr⟩)), List.getElem?_set_eq_of_lt _ hr,
      List.get?_eq_getElem?, List.getElem?_eq_getElem hr]
    rfl
  · exact List.get?_set_ne _ _ (Ne.symm hk)

theorem heapGet_set_self {α : Type*} (h : Heap α) (r : ℕ) (x : List α)
    (hr : r < h.length) : heapGet (h.set r x) r = x := by
  rw [heapGet, List.getD_eq_get?, List.get?_eq_getElem?, List.getElem?_set_eq_of_lt _ hr]
  rfl

theorem heapGet_set_other {α : Type*} (h : Heap α) (r r' : ℕ) (x : List α)
    (hne : r' ≠ r) : heapGet (h.set r x) r' = heapGet h r' := by
  rw [heapGet, heapGet, List.getD_eq_get?, List.getD_eq_get?,
    List.get?_set_ne _ _ (Ne.symm hne)]

/-- The in-place heap loop is the pure loop applied to the referenced
cell, written back to the same cell. -/
theorem heapShuffleLoop_eq_set {α : Type*} (ds : Draws) (i : ℕ) (h : Heap α) (r : ℕ)
    (hr : r < h.length) :
    heapShuffleLoop ds i h r =
      h.set r (App.fisher_yates_shuffle_loop ds i (heapGet h r)) := by
  induction i generalizing h with
  | zero =>
      show h = h.set r (heapGet h r)
      exact (set_heapGet_self h r hr).symm
  | succ i ih =>
      show heapShuffleLoop ds i (h.set r (listSwap (heapGet h r) (i + 1) (ds (i + 1) : ℕ))) r =
        h.set r (App.fisher_yates_shuffle_loop ds i
          (listSwap (heapGet h r) (i + 1) (ds (i + 1) : ℕ)))
      rw [ih _ (by rw [List.length_set]; exact hr), heapGet_set_self _ _ _ hr, List.set_set]

theorem app_shuffle_perm {α : Type*} (ds : Draws) (l : List α) :
    List.Perm (App.fisher_yates_shuffle ds l) l :=
  shuffle_loop_perm ds (l.length - 1) l

theorem alex_shuffle_perm {α : Type*} (ds : Draws) (l : List α) :
    List.Perm (AlexAdventure.fisher_yates_shuffle ds l) l := by
  show List.Perm (AlexAdventure.fisher_yates_shuffle_loop ds (l.length - 1) l) l
  rw [← app_alex_loop_eq]
  exact shuffle_loop_perm ds (l.length - 1) l

/-- Unfolding lemma: `get_chapter_questions` with its local `let`s resolved. -/
theorem get_chapter_questions_eq (ds : Draws) (df : List Question)
    (realm difficulty : String) (m : ℕ) :
    AlexAdventure.get_chapter_questions ds df realm difficulty m =
      if (df.filter fun q => q.topic == realm && q.difficulty == difficulty).length = 0 then []
      else (AlexAdventure.fisher_yates_shuffle ds
        (df.filter fun q => q.topic == realm && q.difficulty == difficulty)).take m := rfl

/-- Unfolding lemma: `start_chapter_quiz` with its local `let`s resolved. -/
theorem start_chapter_quiz_eq (ds : Draws) (df : List Question)
    (realm difficulty : String) :
    App.start_chapter_quiz ds df realm difficulty =
      if ((df.filter fun q => q.topic == realm && q.difficulty == difficulty).take 10).length = 0
        then none
      else if (((df.filter fun q => q.topic == realm && q.difficulty == difficulty).take 10).filter
          fun q => !(pyStrip q.question).isEmpty).length = 0 then some []
      else some (App.fisher_yates_shuffle ds
        (((df.filter fun q => q.topic == realm && q.difficulty == difficulty).take 10).filter
          fun q => !(pyStrip q.question).isEmpty)) := rfl

theorem npClip_bounds (x lo hi : ℚ) (h : lo ≤ hi) :
    lo ≤ TrainModel.npClip x lo hi ∧ TrainModel.npClip x lo hi ≤ hi :=
  ⟨le_min h (le_max_left lo x), min_le_left hi _⟩

/-- A Python dict update makes the key map to the new value. -/
theorem lookup_dictSet {β : Type*} (l : List (String × β)) (k : String) (v : β) :
    (App.dictSet l k v).lookup k = some v := by
  unfold App.dictSet
  split_ifs with h
  · induction l with
    | nil => simp at h
    | cons p l ih =>
        by_cases hp : p.1 = k
        · rw [List.map_cons, if_pos hp]
          simp [List.lookup]
        · rw [List.map_cons, if_neg hp]
          have hbp : (p.1 == k) = false := beq_eq_false_iff_ne.mpr hp
          have hb : (k == p.1) = false := beq_eq_false_iff_ne.mpr (Ne.symm hp)
          have h' : l.any (fun p => p.1 == k) = true := by
            simpa [List.any_cons, hbp] using h
          simpa [List.lookup, hb] using ih h'
  · induction l with
    | nil => simp [List.lookup]
    | cons p l ih =>
        have hp : ¬p.1 = k := by
          intro hk
          exact h (by simp [List.any_cons, hk])
        have hb : (k == p.1) = false := beq_eq_false_iff_ne.mpr (Ne.symm hp)
        have h' : ¬l.any (fun p => p.1 == k) = true := fun hl =>
          h (by simp [List.any_cons, hl])
        simpa [List.lookup, hb] using ih h'

/-- Unfolding lemma: `weak_areas` after `update_user_progress`. -/
theorem update_user_progress_weak_areas_eq (st : App.PlayerProgress) (r d : String)
    (s t : ℕ) (dt : String) :
    (App.update_user_progress st r d s t dt).weak_areas =
      if App.quiz_percentage s t < 60 then
        (if r ∈ st.weak_areas then st.weak_areas else st.weak_areas ++ [r])
      else if 85 ≤ App.quiz_percentage s t then st.weak_areas.erase r
      else st.weak_areas := rfl

/-- Unfolding lemma: `strong_areas` after `update_user_progress`. -/
theorem update_user_progress_strong_areas_eq (st : App.PlayerProgress) (r d : String)
    (s t : ℕ) (dt : String) :
    (App.update_user_progress st r d s t dt).strong_areas =
      if App.quiz_percentage s t < 60 then st.strong_areas
      else if 85 ≤ App.quiz_percentage s t then
        (if r ∈ st.strong_areas then st.strong_areas else st.strong_areas ++ [r])
      else st.strong_areas := rfl

/-- Unfolding lemma: `completed_chapters` after `update_user_progress`. -/
theorem update_user_progress_completed_eq (st : App.PlayerProgress) (r d : String)
    (s t : ℕ) (dt : String) :
    (App.update_user_progress st r d s t dt).completed_chapters =
      App.dictSet st.completed_chapters r
        (App.dictSet ((st.completed_chapters.lookup r).getD []) d
          { score := s, total := t, percentage := App.quiz_percentage s t,
            attempts := ((((st.completed_chapters.lookup r).getD []).lookup d).map
              App.ChapterEntry.attempts).getD 0 + 1,
            date := dt }) := rfl

end ManabiFun

/-! ## Claim theorems -/

open ManabiFun

/-- C1: For every input list, `fisher_yates_shuffle` returns a list
of the same length that is a permutation of the input; and, modelling
the draw at position `i` as uniform on `{0, ..., i}`, the map from draw
sequences to output arrangements is injective and onto the permutations
of the identity arrangement — a bijection between the `n!` draw
sequences (third conjunct) and the `n!` permutations, so each
permutation is produced by exactly one equally likely draw sequence. -/
theorem fisher_yates_shuffle_unbiased_permutation :
    (∀ (α : Type) (ds : Draws) (l : List α),
        (App.fisher_yates_shuffle ds l).length = l.length ∧
        List.Perm (App.fisher_yates_shuffle ds l) l) ∧
    (∀ n : ℕ,
        Function.Injective (fun d : BoundedDraws n => outList d) ∧
        (∀ l : List (Fin n), List.Perm l (List.finRange n) →
          ∃ d : BoundedDraws n, outList d = l) ∧
        Fintype.card (BoundedDraws n) = n.factorial) := by
  constructor
  · intro α ds l
    exact ⟨shuffle_loop_length ds _ l, shuffle_loop_perm ds _ l⟩
  · intro n
    exact ⟨outList_injective n, outList_surjective n, card_boundedDraws n⟩

/-- Witness for C1 at a concrete input: `[1, 0]` is a permutation of
`finRange 2` and is realised by some draw sequence. -/
theorem fisher_yates_shuffle_unbiased_permutation_witness :
    List.Perm [(1 : Fin 2), 0] (List.finRange 2) ∧
    ∃ d : BoundedDraws 2, outList d = [(1 : Fin 2), 0] :=
  ⟨by decide,
    (fisher_yates_shuffle_unbiased_permutation.2 2).2.1 [(1 : Fin 2), 0] (by decide)⟩

/-- C2 counterexample: The two reimplementations are not verbatim
copies of one function: on the same heap, the same reference and the
same draws, `app.py`'s version and `alex_adventure.py`'s version have
different effects (the former shuffles the argument object and returns
its reference, the latter allocates a copy). -/
theorem fisher_yates_not_verbatim_counterexample :
    App.fisher_yates_shuffle_heap (fun i => ⟨0, Nat.succ_pos i⟩) [[(1 : ℕ), 2]] 0 ≠
      AlexAdventure.fisher_yates_shuffle_heap (fun i => ⟨0, Nat.succ_pos i⟩) [[(1 : ℕ), 2]] 0 := by
  decide

/-- C2 amended: The Fisher-Yates shuffle appears in the two quiz
front ends (`app.py` and `alex_adventure.py`, not in every source
file), with one deviation — `alex_adventure.py` shuffles a copy — and
the two versions compute the same function of the list value: given the
same input list and the same sequence of random draws they return equal
result lists. -/
theorem fisher_yates_app_alex_same_function :
    ∀ (α : Type) (ds : Draws) (l : List α),
      App.fisher_yates_shuffle ds l = AlexAdventure.fisher_yates_shuffle ds l := by
  intro α ds l
  exact app_alex_loop_eq ds (l.length - 1) l

/-- C3 counterexample: `alex_adventure.py`'s `fisher_yates_shuffle`
is not in place: on heap `[[1, 2]]` with the argument at reference `0`
it returns a different reference, and the caller's object still holds
the unshuffled `[1, 2]` (the shuffle of `[1, 2]` under these draws is
`[2, 1]`). -/
theorem fisher_yates_in_place_counterexample :
    (AlexAdventure.fisher_yates_shuffle_heap
        (fun i => ⟨0, Nat.succ_pos i⟩) [[(1 : ℕ), 2]] 0).2 ≠ 0 ∧
    heapGet (AlexAdventure.fisher_yates_shuffle_heap
        (fun i => ⟨0, Nat.succ_pos i⟩) [[(1 : ℕ), 2]] 0).1 0 = [1, 2] ∧
    App.fisher_yates_shuffle (fun i => ⟨0, Nat.succ_pos i⟩) [(1 : ℕ), 2] = [2, 1] := by
  refine ⟨by decide, by decide, by decide⟩

/-- C3 amended: `app.py`'s `fisher_yates_shuffle` shuffles in
place: it rearranges the argument object by successive swaps and
returns the very reference it was given, leaving every other object
unchanged.  `alex_adventure.py`'s version instead copies the list,
shuffles the copy, returns a reference to the fresh copy, and leaves
every pre-existing object — the argument included — unchanged. -/
theorem fisher_yates_heap_effects :
    ∀ (α : Type) (ds : Draws) (h : Heap α) (r : ℕ), r < h.length →
      ((App.fisher_yates_shuffle_heap ds h r).2 = r ∧
        heapGet (App.fisher_yates_shuffle_heap ds h r).1 r =
          App.fisher_yates_shuffle ds (heapGet h r) ∧
        (∀ r', r' ≠ r →
          heapGet (App.fisher_yates_shuffle_heap ds h r).1 r' = heapGet h r')) ∧
      ((AlexAdventure.fisher_yates_shuffle_heap ds h r).2 = h.length ∧
        (AlexAdventure.fisher_yates_shuffle_heap ds h r).2 ≠ r ∧
        (∀ r', r' < h.length →
          heapGet (AlexAdventure.fisher_yates_shuffle_heap ds h r).1 r' = heapGet h r') ∧
        heapGet (AlexAdventure.fisher_yates_shuffle_heap ds h r).1 h.length =
          AlexAdventure.fisher_yates_shuffle ds (heapGet h r)) := by
  intro α ds h r hr
  have happ : (App.fisher_yates_shuffle_heap ds h r).1 =
      h.set r (App.fisher_yates_shuffle_loop ds ((heapGet h r).length - 1) (heapGet h r)) :=
    heapShuffleLoop_eq_set ds _ h r hr
  have hlen2 : h.length < (h ++ [heapGet h r]).length := by
    rw [List.length_append]
    simp
  have halex : (AlexAdventure.fisher_yates_shuffle_heap ds h r).1 =
      (h ++ [heapGet h r]).set h.length
        (App.fisher_yates_shuffle_loop ds
          ((heapGet (h ++ [heapGet h r]) h.length).length - 1)
          (heapGet (h ++ [heapGet h r]) h.length)) := by
    have := heapShuffleLoop_eq_set ds ((heapGet h r).length - 1)
      (h ++ [heapGet h r]) h.length hlen2
    rw [show (AlexAdventure.fisher_yates_shuffle_heap ds h r).1 =
      heapShuffleLoop ds ((heapGet h r).length - 1) (h ++ [heapGet h r]) h.length from rfl, this]
    rw [show heapGet (h ++ [heapGet h r]) h.length = heapGet h r from ?_]
    · rw [heapGet, List.getD_eq_get?, List.get?_concat_length]
      rfl
  have hconcat : heapGet (h ++ [heapGet h r]) h.length = heapGet h r := by
    rw [heapGet, List.getD_eq_get?, List.get?_concat_length]
    rfl
  refine ⟨⟨rfl, ?_, ?_⟩, rfl, (show h.length ≠ r by omega), ?_, ?_⟩
  · rw [happ]
    exact heapGet_set_self _ _ _ hr
  · intro r' hne
    rw [happ]
    exact heapGet_set_other _ _ _ _ hne
  · intro r' hlt
    rw [halex, heapGet_set_other _ _ _ _ (by omega), heapGet, heapGet,
      List.getD_eq_get?, List.getD_eq_get?, List.get?_append hlt]
    rfl
  · rw [halex, heapGet_set_self _ _ _ hlen2, hconcat]
    exact app_alex_loop_eq ds _ _

/-- C4: `is_chapter_passed realm difficulty` (with the default 89
threshold) holds exactly when the chapter's recorded `total_questions`
is at least 10 and the accuracy `correct_answers / total_questions *
100` is at least 89 percent. -/
theorem is_chapter_passed_iff :
    ∀ s : AlexAdventure.ChapterStats,
      AlexAdventure.is_chapter_passed s 89 = true ↔
        (10 ≤ s.total_questions ∧
          89 ≤ ((s.correct_answers : ℚ) / (s.total_questions : ℚ)) * 100) := by
  intro s
  unfold AlexAdventure.is_chapter_passed AlexAdventure.calculate_chapter_accuracy
  by_cases h0 : s.total_questions = 0
  · simp [h0]
  · simp [h0]

/-- C5: `log_score` appends exactly one row: the result is the old
file followed by a single new row carrying the given student id, name,
topic, score, total, correct count, difficulty and xp (plus timestamp
and the two dummy random fields); every previously stored row is
unchanged, at its old position. -/
theorem log_score_appends :
    ∀ (file : List App.ScoreRow) (sid sname topic : String) (score total correct : ℕ)
      (difficulty : String) (xp : ℕ) (ts : String) (tsm sd : ℕ),
      App.log_score file sid sname topic score total correct difficulty xp ts tsm sd =
        file ++
          [⟨sid, sname, ts, "island", topic, score, total, correct, tsm, difficulty, xp, sd⟩] ∧
      (∀ i, i < file.length →
        (App.log_score file sid sname topic score total correct difficulty xp ts tsm sd).get? i =
          file.get? i) ∧
      (App.log_score file sid sname topic score total correct difficulty xp ts tsm sd).length =
        file.length + 1 ∧
      (App.log_score file sid sname topic score total correct difficulty xp ts tsm sd).get?
          file.length =
        some ⟨sid, sname, ts, "island", topic, score, total, correct, tsm, difficulty, xp, sd⟩ := by
  intro file sid sname topic score total correct difficulty xp ts tsm sd
  refine ⟨rfl, ?_, ?_, ?_⟩
  · intro i hi
    exact List.get?_append hi
  · simp [App.log_score]
  · exact List.get?_concat_length file _

/-- Witness for C5: on a one-row file, the old row is still readable at
position 0 after logging. -/
theorem log_score_appends_witness :
    (0 : ℕ) <
      ([⟨"s", "n", "t", "island", "g", 1, 1, 1, 1, "easy", 10, 1⟩] :
        List App.ScoreRow).length ∧
    (App.log_score [⟨"s", "n", "t", "island", "g", 1, 1, 1, 1, "easy", 10, 1⟩]
        "s2" "n2" "g2" 2 3 2 "hard" 20 "t2" 4 5).get? 0 =
      some ⟨"s", "n", "t", "island", "g", 1, 1, 1, 1, "easy", 10, 1⟩ :=
  ⟨by decide,
    by
      rw [(log_score_appends [⟨"s", "n", "t", "island", "g", 1, 1, 1, 1, "easy", 10, 1⟩]
        "s2" "n2" "g2" 2 3 2 "hard" 20 "t2" 4 5).2.1 0 (by decide)]
      rfl⟩

/-- C6: A chapter quiz draws only from its topic-by-difficulty
bucket: every question selected by `get_chapter_questions` (with the
default limit 10) or placed into the quiz list by `start_chapter_quiz`
has topic equal to the selected realm and difficulty equal to the
selected chapter difficulty, and at most 10 questions are selected. -/
theorem chapter_quiz_questions_from_bucket :
    ∀ (ds : Draws) (df : List Question) (realm difficulty : String),
      ((AlexAdventure.get_chapter_questions ds df realm difficulty 10).length ≤ 10 ∧
        (∀ q ∈ AlexAdventure.get_chapter_questions ds df realm difficulty 10,
          q.topic = realm ∧ q.difficulty = difficulty)) ∧
      (∀ l, App.start_chapter_quiz ds df realm difficulty = some l →
        l.length ≤ 10 ∧ ∀ q ∈ l, q.topic = realm ∧ q.difficulty = difficulty) := by
  intro ds df realm difficulty
  constructor
  · rw [get_chapter_questions_eq]
    split_ifs with h0
    · simp
    · refine ⟨?_, ?_⟩
      · rw [List.length_take]
        exact min_le_left _ _
      · intro q hq
        have hmem := List.mem_of_mem_take hq
        have hp := List.of_mem_filter ((alex_shuffle_perm ds _).mem_iff.mp hmem)
        rw [Bool.and_eq_true, beq_iff_eq, beq_iff_eq] at hp
        exact hp
  · intro l hl
    rw [start_chapter_quiz_eq] at hl
    split_ifs at hl with h1 h2
    · obtain rfl : l = [] := (Option.some.inj hl).symm
      exact ⟨by simp, by simp⟩
    · obtain rfl : l = App.fisher_yates_shuffle ds
          (((df.filter fun q => q.topic == realm && q.difficulty == difficulty).take 10).filter
            fun q => !(pyStrip q.question).isEmpty) := (Option.some.inj hl).symm
      constructor
      · rw [(app_shuffle_perm ds _).length_eq]
        calc (((df.filter fun q => q.topic == realm && q.difficulty == difficulty).take 10).filter
              fun q => !(pyStrip q.question).isEmpty).length
            ≤ ((df.filter fun q =>
                q.topic == realm && q.difficulty == difficulty).take 10).length :=
              List.length_filter_le _ _
          _ ≤ 10 := by
              rw [List.length_take]
              exact min_le_left _ _
      · intro q hq
        have hmem := (app_shuffle_perm ds _).mem_iff.mp hq
        have hmem2 := (List.mem_filter.mp hmem).1
        have hmem3 := List.mem_of_mem_take hmem2
        have hp := List.of_mem_filter hmem3
        rw [Bool.and_eq_true, beq_iff_eq, beq_iff_eq] at hp
        exact hp

/-- Witness for C6 at a one-question bank. -/
theorem chapter_quiz_questions_from_bucket_witness :
    App.start_chapter_quiz (fun i => ⟨0, Nat.succ_pos i⟩)
        [⟨"grammar", "easy", "Q1", "A"⟩] "grammar" "easy" =
      some [⟨"grammar", "easy", "Q1", "A"⟩] ∧
    (⟨"grammar", "easy", "Q1", "A"⟩ : Question) ∈ [(⟨"grammar", "easy", "Q1", "A"⟩ : Question)] ∧
    (⟨"grammar", "easy", "Q1", "A"⟩ : Question).topic = "grammar" ∧
    (⟨"grammar", "easy", "Q1", "A"⟩ : Question).difficulty = "easy" :=
  ⟨by decide, by decide,
    (chapter_quiz_questions_from_bucket (fun i => ⟨0, Nat.succ_pos i⟩)
        [⟨"grammar", "easy", "Q1", "A"⟩] "grammar" "easy").2
      [⟨"grammar", "easy", "Q1", "A"⟩] (by decide) |>.2
      ⟨"grammar", "easy", "Q1", "A"⟩ (by decide)⟩

/-- C7: `predict_weakness` is total and lands in the five-topic
list `TOPICS`: it always returns a pair of a prediction index and a
topic from `TOPICS`; if the model raises, it returns `(0, TOPICS[0])`;
if the predicted index is not below `len(TOPICS)`, the returned topic
falls back to `TOPICS[0]` (`"grammar"`). -/
theorem predict_weakness_total_and_guarded :
    ∀ (model : List ℚ → Except String ℕ) (row : List ℚ),
      (App.predict_weakness model row).2 ∈ App.TOPICS ∧
      App.TOPICS.length = 5 ∧
      (∀ e, model row = Except.error e →
        App.predict_weakness model row = (0, "grammar")) ∧
      (∀ p, model row = Except.ok p → ¬p < App.TOPICS.length →
        (App.predict_weakness model row).2 = "grammar") := by
  intro model row
  refine ⟨?_, rfl, ?_, ?_⟩
  · unfold App.predict_weakness
    cases hm : model row with
    | error e => simp [App.TOPICS]
    | ok p =>
        by_cases hp : p < App.TOPICS.length
        · simp only [hp, if_pos]
          rw [List.getD_eq_get?, List.get?_eq_get hp, Option.getD_some]
          exact List.get_mem _ _ _
        · have hp5 : ¬p < 5 := fun h => hp (by simpa [App.TOPICS] using h)
          simp [App.TOPICS, hp5]
  · intro e he
    unfold App.predict_weakness
    rw [he]
    rfl
  · intro p hp hlt
    unfold App.predict_weakness
    rw [hp]
    show (if p < App.TOPICS.length then App.TOPICS.getD p "" else App.TOPICS.getD 0 "") =
      "grammar"
    rw [if_neg hlt]
    rfl

/-- Witness for C7: a model that raises yields `(0, "grammar")`. -/
theorem predict_weakness_total_and_guarded_witness :
    ((fun _ : List ℚ => (Except.error "boom" : Except String ℕ)) [] =
      Except.error "boom") ∧
    App.predict_weakness (fun _ => Except.error "boom") [] = (0, "grammar") :=
  ⟨rfl,
    (predict_weakness_total_and_guarded (fun _ => Except.error "boom") []).2.2.1 "boom" rfl⟩

/-- C8: The classifier's training data is synthetic: each of the
2000 samples built by `create_training_data_from_csv` has as label the
randomly drawn weak-topic index, the feature score at that index
clipped into `[20, 65]`, every other topic score clipped into
`[30, 95]`; and the output is independent of the recorded student score
log (the last conjunct: swapping the log changes nothing). -/
theorem create_training_data_synthetic :
    ∀ (topics : List String) (log1 log2 : List App.ScoreRow) (weakDraw : ℕ → ℕ)
      (baseDraw : ℕ → ℕ → ℚ) (weakScoreDraw : ℕ → ℚ) (timeDraw grammarExtraDraw : ℕ → ℚ),
      (∀ k, weakDraw k < topics.length) →
      ∀ out, TrainModel.create_training_data_from_csv topics log1 weakDraw baseDraw
          weakScoreDraw timeDraw grammarExtraDraw = out →
        out.1.length = 2000 ∧ out.2.length = 2000 ∧
        (∀ k, k < 2000 →
          out.2.getD k 0 = weakDraw k ∧
          (out.1.getD k []).length = topics.length + 1 ∧
          (20 ≤ (out.1.getD k []).getD (weakDraw k) 0 ∧
            (out.1.getD k []).getD (weakDraw k) 0 ≤ 65) ∧
          (∀ t, t < topics.length → t ≠ weakDraw k →
            30 ≤ (out.1.getD k []).getD t 0 ∧ (out.1.getD k []).getD t 0 ≤ 95)) ∧
        TrainModel.create_training_data_from_csv topics log2 weakDraw baseDraw
          weakScoreDraw timeDraw grammarExtraDraw = out := by
  intro topics log1 log2 weakDraw baseDraw weakScoreDraw timeDraw grammarExtraDraw hw out hout
  subst hout
  refine ⟨by simp [TrainModel.create_training_data_from_csv],
    by simp [TrainModel.create_training_data_from_csv], ?_, rfl⟩
  intro k hk
  have hfeat : (TrainModel.create_training_data_from_csv topics log1 weakDraw baseDraw
      weakScoreDraw timeDraw grammarExtraDraw).1.getD k [] =
      (TrainModel.trainingSample topics weakDraw baseDraw weakScoreDraw timeDraw
        grammarExtraDraw k).1 := by
    show ((((List.range 2000).map (TrainModel.trainingSample topics weakDraw baseDraw
      weakScoreDraw timeDraw grammarExtraDraw)).map Prod.fst).getD k []) = _
    rw [List.getD_eq_get?, List.get?_map, List.get?_map, List.get?_range hk]
    rfl
  have hlab : (TrainModel.create_training_data_from_csv topics log1 weakDraw baseDraw
      weakScoreDraw timeDraw grammarExtraDraw).2.getD k 0 =
      (TrainModel.trainingSample topics weakDraw baseDraw weakScoreDraw timeDraw
        grammarExtraDraw k).2 := by
    show ((((List.range 2000).map (TrainModel.trainingSample topics weakDraw baseDraw
      weakScoreDraw timeDraw grammarExtraDraw)).map Prod.snd).getD k 0) = _
    rw [List.getD_eq_get?, List.get?_map, List.get?_map, List.get?_range hk]
    rfl
  have hsample : (TrainModel.trainingSample topics weakDraw baseDraw weakScoreDraw timeDraw
      grammarExtraDraw k).1 =
      (((List.range topics.length).map fun t =>
          TrainModel.npClip (baseDraw k t) 30 95).set (weakDraw k)
        (TrainModel.npClip (weakScoreDraw k) 20 65)) ++
        [max 5 (timeDraw k + (if weakDraw k = 0 then grammarExtraDraw k else 0))] := rfl
  have hscoreslen : (((List.range topics.length).map fun t =>
      TrainModel.npClip (baseDraw k t) 30 95).set (weakDraw k)
        (TrainModel.npClip (weakScoreDraw k) 20 65)).length = topics.length := by
    rw [List.length_set, List.length_map, List.length_range]
  refine ⟨?_, ?_, ?_, ?_⟩
  · rw [hlab]
    rfl
  · rw [hfeat, hsample, List.length_append, hscoreslen]
    rfl
  · rw [hfeat, hsample, List.getD_eq_get?, List.get?_append (by rw [hscoreslen]; exact hw k),
      List.get?_eq_getElem?, List.getElem?_set_eq_of_lt _ (by
        rw [List.length_map, List.length_range]; exact hw k)]
    exact npClip_bounds _ 20 65 (by norm_num)
  · intro t ht hne
    rw [hfeat, hsample, List.getD_eq_get?, List.get?_append (by rw [hscoreslen]; exact ht),
      List.get?_set_ne _ _ (Ne.symm hne), List.get?_map, List.get?_range ht]
    exact npClip_bounds _ 30 95 (by norm_num)

/-- Witness for C8 with the five concrete topics and constant draws. -/
theorem create_training_data_synthetic_witness :
    (∀ k : ℕ, (fun _ : ℕ => 0) k < App.TOPICS.length) ∧
    (TrainModel.create_training_data_from_csv App.TOPICS [] (fun _ => 0) (fun _ _ => 70)
        (fun _ => 40) (fun _ => 15) (fun _ => 5)).1.length = 2000 :=
  ⟨fun _ => by simp [App.TOPICS],
    (create_training_data_synthetic App.TOPICS [] [] (fun _ => 0) (fun _ _ => 70)
      (fun _ => 40) (fun _ => 15) (fun _ => 5) (fun _ => by simp [App.TOPICS]) _ rfl).1⟩

/-- C9: Every accuracy/percentage computation in the progress
bookkeeping is guarded against empty input: the percentage of
`update_user_progress` (and the chapter entry it records) and of
`show_quiz_results` is 0 whenever `total_questions = 0`, and
`calculate_chapter_accuracy` returns 0 for a chapter with no attempted
questions. -/
theorem percentage_zero_guarded :
    ∀ (s c : ℕ) (st : App.PlayerProgress) (realm difficulty date : String),
      App.quiz_percentage s 0 = 0 ∧
      App.show_quiz_results_percentage s 0 = 0 ∧
      AlexAdventure.calculate_chapter_accuracy ⟨0, c⟩ = 0 ∧
      ∃ e : App.ChapterEntry,
        (((App.update_user_progress st realm difficulty s 0 date).completed_chapters.lookup
            realm).getD []).lookup difficulty = some e ∧
        e.percentage = 0 := by
  intro s c st realm difficulty date
  refine ⟨by simp [App.quiz_percentage], by simp [App.show_quiz_results_percentage],
    by simp [AlexAdventure.calculate_chapter_accuracy], ?_⟩
  refine ⟨App.ChapterEntry.mk s 0 (App.quiz_percentage s 0)
      (((((st.completed_chapters.lookup realm).getD []).lookup
        difficulty).map App.ChapterEntry.attempts).getD 0 + 1) date,
    ?_, by simp [App.quiz_percentage]⟩
  rw [update_user_progress_completed_eq, lookup_dictSet, Option.getD_some, lookup_dictSet]

/-- C10: After any `update_user_progress` call with percentage at
least 85 the realm is absent from `weak_areas` (given the invariant
that `weak_areas` holds no duplicates, which every update preserves);
no call ever removes a realm from `strong_areas`; and a realm that
first scores at least 85 and then below 60 ends up in `weak_areas` and
`strong_areas` simultaneously. -/
theorem update_user_progress_weak_strong :
    (∀ (st : App.PlayerProgress) (r d : String) (s t : ℕ) (dt : String),
        st.weak_areas.Nodup → 85 ≤ App.quiz_percentage s t →
        r ∉ (App.update_user_progress st r d s t dt).weak_areas) ∧
    (∀ (st : App.PlayerProgress) (r d : String) (s t : ℕ) (dt : String) (x : String),
        x ∈ st.strong_areas → x ∈ (App.update_user_progress st r d s t dt).strong_areas) ∧
    (∀ (st : App.PlayerProgress) (r d : String) (s t : ℕ) (dt : String),
        st.weak_areas.Nodup → (App.update_user_progress st r d s t dt).weak_areas.Nodup) ∧
    (∀ (st : App.PlayerProgress) (r d1 d2 : String) (s1 t1 s2 t2 : ℕ) (dt1 dt2 : String),
        85 ≤ App.quiz_percentage s1 t1 → App.quiz_percentage s2 t2 < 60 →
        r ∈ (App.update_user_progress (App.update_user_progress st r d1 s1 t1 dt1)
              r d2 s2 t2 dt2).weak_areas ∧
        r ∈ (App.update_user_progress (App.update_user_progress st r d1 s1 t1 dt1)
              r d2 s2 t2 dt2).strong_areas) := by
  refine ⟨?_, ?_, ?_, ?_⟩
  · intro st r d s t dt hnd h85
    rw [update_user_progress_weak_areas_eq, if_neg (by linarith), if_pos h85]
    exact hnd.not_mem_erase
  · intro st r d s t dt x hx
    rw [update_user_progress_strong_areas_eq]
    split_ifs with h1 h2 h3
    · exact hx
    · exact hx
    · exact List.mem_append_left _ hx
    · exact hx
  · intro st r d s t dt hnd
    rw [update_user_progress_weak_areas_eq]
    split_ifs with h1 h2 h3
    · exact hnd
    · simp only [List.nodup_append, List.nodup_singleton]
      exact ⟨hnd, trivial, by simpa using h2⟩
    · exact hnd.erase r
    · exact hnd
  · intro st r d1 d2 s1 t1 s2 t2 dt1 dt2 h85 h60
    have hstrong1 : r ∈ (App.update_user_progress st r d1 s1 t1 dt1).strong_areas := by
      rw [update_user_progress_strong_areas_eq, if_neg (by linarith), if_pos h85]
      split_ifs with hr
      · exact hr
      · exact List.mem_append_right _ (by simp)
    refine ⟨?_, ?_⟩
    · rw [update_user_progress_weak_areas_eq, if_pos h60]
      split_ifs with hr
      · exact hr
      · exact List.mem_append_right _ (by simp)
    · rw [update_user_progress_strong_areas_eq, if_pos h60]
      exact hstrong1

/-- Witness for C10: score 9/10 (90 percent) then 2/10 (20 percent)
puts the realm in both lists at once. -/
theorem update_user_progress_weak_strong_witness :
    85 ≤ App.quiz_percentage 9 10 ∧ App.quiz_percentage 2 10 < 60 ∧
    "grammar" ∈ (App.update_user_progress
        (App.update_user_progress ⟨[], 0, 0, [], [], [], []⟩ "grammar" "easy" 9 10 "d1")
        "grammar" "medium" 2 10 "d2").weak_areas ∧
    "grammar" ∈ (App.update_user_progress
        (App.update_user_progress ⟨[], 0, 0, [], [], [], []⟩ "grammar" "easy" 9 10 "d1")
        "grammar" "medium" 2 10 "d2").strong_areas := by
  have h85 : 85 ≤ App.quiz_percentage 9 10 := by norm_num [App.quiz_percentage]
  have h60 : App.quiz_percentage 2 10 < 60 := by norm_num [App.quiz_percentage]
  have h := update_user_progress_weak_strong.2.2.2 ⟨[], 0, 0, [], [], [], []⟩
    "grammar" "easy" "medium" 9 10 2 10 "d1" "d2" h85 h60
  exact ⟨h85, h60, h.1, h.2⟩

/-- Witness for C3 at a concrete heap. -/
theorem fisher_yates_heap_effects_witness :
    0 < ([[(1 : ℕ), 2]] : Heap ℕ).length ∧
    heapGet (App.fisher_yates_shuffle_heap
        (fun i => ⟨0, Nat.succ_pos i⟩) [[(1 : ℕ), 2]] 0).1 0 =
      App.fisher_yates_shuffle (fun i => ⟨0, Nat.succ_pos i⟩) [(1 : ℕ), 2] :=
  ⟨by decide,
    ((fisher_yates_heap_effects ℕ (fun i => ⟨0, Nat.succ_pos i⟩) [[(1 : ℕ), 2]] 0
      (by decide)).1).2.1⟩

